import Mathlib

/-!
Verification of the PCA + 8-bit quantization pipeline
(`pca_quantize.py`): per-row symmetric quantization of a reduced
embedding matrix and serialization to a binary file
(header ++ scales ++ quantized bytes).

Real values carried by the script (numpy floats) are modelled as exact
rationals; machine bytes are naturals below 256.
-/

namespace PcaQuantize

/-- Rounding to the nearest integer with ties to the nearest even
integer: the behaviour of `np.round`. -/
def roundHalfToEven (q : ℚ) : ℤ :=
  if q - ⌊q⌋ < 1/2 then ⌊q⌋
  else if 1/2 < q - ⌊q⌋ then ⌊q⌋ + 1
  else if 2 ∣ ⌊q⌋ then ⌊q⌋ else ⌊q⌋ + 1

/-- Fuel-driven base-2 logarithm on naturals (structural recursion so
that the kernel can evaluate it). -/
def natLog2Fuel : ℕ → ℕ → ℕ
  | 0, _ => 0
  | fuel + 1, n => if n ≤ 1 then 0 else natLog2Fuel fuel (n / 2) + 1

/-- Floor of the base-2 logarithm of a natural number (0 for 0). -/
def natLog2 (n : ℕ) : ℕ := natLog2Fuel n n

/-- Floor of the base-2 logarithm of a positive rational. -/
def floorLog2 (a : ℚ) : ℤ :=
  let p := a.num.toNat
  let d := a.den
  let lp := natLog2 p
  let ld := natLog2 d
  if d * 2 ^ lp ≤ p * 2 ^ ld then (lp : ℤ) - ld else ((lp : ℤ) - ld) - 1

/-- Integer power of two, as a rational: used for binary32 scaling. -/
def pow2z (e : ℤ) : ℚ :=
  if 0 ≤ e then ((2 : ℚ) ^ e.toNat) else 1 / ((2 : ℚ) ^ (-e).toNat)

/-- The IEEE-754 binary32 bit pattern (round to nearest, ties to even)
of a rational: the value written for each scale by
`np.array(scales, dtype=np.float32).tobytes()`. -/
def float32bits (q : ℚ) : ℕ :=
  if q = 0 then 0
  else
    let signBit : ℕ := if q < 0 then 2 ^ 31 else 0
    let a : ℚ := |q|
    let e : ℤ := floorLog2 a
    if 127 < e then signBit + 255 * 2 ^ 23
    else if e < -126 then
      signBit + (roundHalfToEven (a * 2 ^ 149)).toNat
    else
      signBit + (e + 126).toNat * 2 ^ 23
        + (roundHalfToEven (a * pow2z (23 - e))).toNat

/-- The four little-endian bytes of a 32-bit unsigned integer, as
written by `struct.pack` with native (little-endian) byte order. -/
def u32le (n : ℕ) : List ℕ :=
  [n % 256, n / 256 % 256, n / 256 ^ 2 % 256, n / 256 ^ 3 % 256]

/-- The four bytes of a float32 value, little-endian. -/
def f32le (q : ℚ) : List ℕ := u32le (float32bits q)

/-- Byte reinterpretation of a signed 8-bit value (two-complement bit
pattern), the effect of
`.astype(np.int8).view(np.uint8)`. -/
def int8ToByte (v : ℤ) : ℕ := (v % 256).toNat

/-- Largest absolute value in a row, as `np.abs(row).max()` computes it
(0 for the empty row). -/
def absMax (row : List ℚ) : ℚ := (row.map (fun x => |x|)).foldr max 0

/-- Per-row scale: `abs_max / 127.0 if abs_max > 0 else 1.0`. -/
def scaleOf (row : List ℚ) : ℚ :=
  if absMax row > 0 then absMax row / 127 else 1

/-- Clamping as `np.clip(v, lo, hi)` performs it. -/
def clip (lo hi v : ℤ) : ℤ :=
  if v < lo then lo else if hi < v then hi else v

/-- One element of `np.clip(np.round(row / scale), -127, 127)`. -/
def quantizeElem (s x : ℚ) : ℤ :=
  clip (-127) 127 (roundHalfToEven (x / s))

/-- Quantization `np.clip(np.round(row / scale), -127, 127).astype(np.int8)` for a
whole row, with the scale computed from that same row. -/
def quantizeRow (row : List ℚ) : List ℤ :=
  row.map (quantizeElem (scaleOf row))

/-- The per-row scales accumulated by the quantization loop, in row
order. -/
def scalesOf (m : List (List ℚ)) : List ℚ := m.map scaleOf

/-- The quantized rows accumulated by the quantization loop, in row
order (`np.vstack(quantized)`). -/
def quantized (m : List (List ℚ)) : List (List ℤ) := m.map quantizeRow

/-- Header bytes `struct.pack("III", vocab_size, TARGET_DIM, 1)`: the 12-byte
header. -/
def headerBytes (n k : ℕ) : List ℕ := u32le n ++ u32le k ++ u32le 1

/-- The byte content of the output file: header, then the scales as
consecutive float32 values, then the quantized rows row-major, each
int8 stored as its unsigned byte. `m` is the reduced matrix and `k`
the target dimension. -/
def outputFile (m : List (List ℚ)) (k : ℕ) : List ℕ :=
  headerBytes m.length k
    ++ ((scalesOf m).map f32le).flatten
    ++ ((quantized m).map (fun r => r.map int8ToByte)).flatten

/-- The error taxonomy relevant to the claims. -/
inductive PipelineError
  | ioError
  | dimensionError
deriving DecidableEq

/-- Modelled from the spec: the dimension validation performed inside
the external PCA library call (`PCA(n_components=K).fit_transform`) is
not part of the repository source; per the spec the run fails with
`DimensionError` when K > D, K < 1 or the matrix is empty, before any
computation and before any output is produced. The projection itself
(the PCA fit) is abstracted as the `reduce` argument, so the model
covers any fitted transform. -/
def runPipeline (emb : List (List ℚ)) (d k : ℕ)
    (reduce : List (List ℚ) → List (List ℚ)) :
    Except PipelineError (List ℕ) :=
  if 1 ≤ k ∧ k ≤ d ∧ 1 ≤ emb.length then
    .ok (outputFile (reduce emb) k)
  else
    .error .dimensionError

/-- The scenario row of §8: a single element 2.54, the other 63 zero
(K = 64). -/
def rowC7 : List ℚ := (254/100 : ℚ) :: List.replicate 63 0

/-! ### Helper lemmas -/

lemma absMax_nil : absMax [] = 0 := rfl

lemma absMax_cons (a : ℚ) (l : List ℚ) :
    absMax (a :: l) = max |a| (absMax l) := rfl

lemma absMax_nonneg (row : List ℚ) : 0 ≤ absMax row := by
  induction row with
  | nil => exact le_refl 0
  | cons a l ih => exact le_max_of_le_right ih

lemma abs_le_absMax {row : List ℚ} {x : ℚ} (hx : x ∈ row) :
    |x| ≤ absMax row := by
  induction row with
  | nil => cases hx
  | cons a l ih =>
    rcases List.mem_cons.mp hx with h | h
    · subst h; exact le_max_left _ _
    · exact le_max_of_le_right (ih h)

lemma absMax_eq_zero {row : List ℚ} (h : ∀ x ∈ row, x = 0) :
    absMax row = 0 := by
  induction row with
  | nil => rfl
  | cons a l ih =>
    rw [absMax_cons, h a (List.mem_cons_self a l), abs_zero,
      ih fun x hx => h x (List.mem_cons_of_mem a hx)]
    exact max_self 0

lemma eq_zero_of_absMax_eq_zero {row : List ℚ} {x : ℚ}
    (h : absMax row = 0) (hx : x ∈ row) : x = 0 := by
  have h1 : |x| ≤ 0 := h ▸ abs_le_absMax hx
  exact abs_eq_zero.mp (le_antisymm h1 (abs_nonneg x))

lemma scaleOf_of_pos {row : List ℚ} (h : 0 < absMax row) :
    scaleOf row = absMax row / 127 := by
  unfold scaleOf
  exact if_pos h

lemma scaleOf_of_all_zero {row : List ℚ} (h : ∀ x ∈ row, x = 0) :
    scaleOf row = 1 := by
  unfold scaleOf
  rw [absMax_eq_zero h]
  norm_num

lemma scaleOf_pos (row : List ℚ) : 0 < scaleOf row := by
  unfold scaleOf
  split_ifs with h
  · positivity
  · exact one_pos

lemma roundHalfToEven_sub_abs_le (q : ℚ) :
    |(roundHalfToEven q : ℚ) - q| ≤ 1/2 := by
  have hf : (⌊q⌋ : ℚ) ≤ q := Int.floor_le q
  have hf1 : q < ⌊q⌋ + 1 := Int.lt_floor_add_one q
  unfold roundHalfToEven
  split_ifs with h1 h2 h3 <;>
    · rw [abs_le]
      push_cast
      constructor <;> linarith

lemma roundHalfToEven_le {q : ℚ} {n : ℤ} (h : q ≤ (n : ℚ)) :
    roundHalfToEven q ≤ n := by
  have hf : ⌊q⌋ ≤ n := by
    rw [← Int.floor_intCast (α := ℚ) n]
    exact Int.floor_le_floor h
  have hfq : (⌊q⌋ : ℚ) ≤ q := Int.floor_le q
  unfold roundHalfToEven
  split_ifs with h1 h2 h3
  · exact hf
  · -- here 1/2 < q - ⌊q⌋, so ⌊q⌋ < n strictly
    have : (⌊q⌋ : ℚ) < n := by linarith
    exact_mod_cast Int.add_one_le_iff.mpr (by exact_mod_cast this)
  · exact hf
  · have : (⌊q⌋ : ℚ) < n := by linarith
    exact_mod_cast Int.add_one_le_iff.mpr (by exact_mod_cast this)

lemma le_roundHalfToEven {q : ℚ} {n : ℤ} (h : (n : ℚ) ≤ q) :
    n ≤ roundHalfToEven q := by
  have hf : n ≤ ⌊q⌋ := Int.le_floor.mpr h
  unfold roundHalfToEven
  split_ifs with h1 h2 h3
  · exact hf
  · exact le_trans hf (Int.le.intro 1 rfl)
  · exact hf
  · exact le_trans hf (Int.le.intro 1 rfl)

lemma roundHalfToEven_tie (f : ℤ) :
    roundHalfToEven ((f : ℚ) + 1/2) = if Even f then f else f + 1 := by
  have hfloor : ⌊(f : ℚ) + 1/2⌋ = f := by
    rw [add_comm, Int.floor_add_int]
    norm_num
  unfold roundHalfToEven
  rw [hfloor]
  have hsub : ((f : ℚ) + 1/2) - (f : ℚ) = 1/2 := by ring
  rw [hsub]
  have hdvd : (2 ∣ f) ↔ Even f := by
    constructor
    · rintro ⟨c, hc⟩; exact ⟨c, by omega⟩
    · rintro ⟨c, hc⟩; exact ⟨c, by omega⟩
  norm_num [hdvd]

lemma clip_bounds (v : ℤ) :
    -127 ≤ clip (-127) 127 v ∧ clip (-127) 127 v ≤ 127 := by
  unfold clip
  split_ifs <;> omega

lemma clip_eq_self {lo hi v : ℤ} (h1 : lo ≤ v) (h2 : v ≤ hi) :
    clip lo hi v = v := by
  unfold clip
  split_ifs <;> omega

lemma quantizeElem_zero (s : ℚ) : quantizeElem s 0 = 0 := by
  have h0 : (0 : ℚ) / s = 0 := zero_div s
  have hr : roundHalfToEven 0 = 0 := by
    unfold roundHalfToEven
    norm_num
  unfold quantizeElem
  rw [h0, hr]
  exact clip_eq_self (by norm_num) (by norm_num)

lemma quantizeElem_roundtrip (row : List ℚ) (x : ℚ) (hx : x ∈ row) :
    |(quantizeElem (scaleOf row) x : ℚ) * scaleOf row - x| ≤ scaleOf row / 2 := by
  have hs : 0 < scaleOf row := scaleOf_pos row
  have habs : |x| ≤ absMax row := abs_le_absMax hx
  by_cases hmax : 0 < absMax row
  · have hscale : scaleOf row = absMax row / 127 := by
      unfold scaleOf
      exact if_pos hmax
    -- the pre-rounding value x / scale lies in [-127, 127]
    have hdiv : |x / scaleOf row| ≤ 127 := by
      rw [abs_div, abs_of_pos hs, div_le_iff₀ hs, hscale]
      calc |x| ≤ absMax row := habs
        _ = 127 * (absMax row / 127) := by ring
    have hub : x / scaleOf row ≤ ((127 : ℤ) : ℚ) := by
      have := (abs_le.mp hdiv).2
      exact_mod_cast this
    have hlb : ((-127 : ℤ) : ℚ) ≤ x / scaleOf row := by
      have := (abs_le.mp hdiv).1
      push_cast
      linarith
    have hround_ub := roundHalfToEven_le hub
    have hround_lb := le_roundHalfToEven hlb
    have hclip : quantizeElem (scaleOf row) x
        = roundHalfToEven (x / scaleOf row) := by
      unfold quantizeElem
      exact clip_eq_self hround_lb hround_ub
    rw [hclip]
    have herr := roundHalfToEven_sub_abs_le (x / scaleOf row)
    have hfac : (roundHalfToEven (x / scaleOf row) : ℚ) * scaleOf row - x
        = ((roundHalfToEven (x / scaleOf row) : ℚ) - x / scaleOf row)
          * scaleOf row := by
      field_simp
    rw [hfac, abs_mul, abs_of_pos hs]
    calc |(roundHalfToEven (x / scaleOf row) : ℚ) - x / scaleOf row|
          * scaleOf row
        ≤ (1/2) * scaleOf row := by
          exact mul_le_mul_of_nonneg_right herr (le_of_lt hs)
      _ = scaleOf row / 2 := by ring
  · have hzero : absMax row = 0 :=
      le_antisymm (not_lt.mp hmax) (absMax_nonneg row)
    have hx0 : x = 0 := eq_zero_of_absMax_eq_zero hzero hx
    rw [hx0, quantizeElem_zero]
    simp only [Int.cast_zero, zero_mul, sub_zero, abs_zero]
    linarith

lemma f32le_length (q : ℚ) : (f32le q).length = 4 := rfl

lemma flatten_map_length_const {α β : Type} (f : α → List β) (c : ℕ) :
    ∀ l : List α, (∀ x ∈ l, (f x).length = c) →
      ((l.map f).flatten).length = l.length * c := by
  intro l
  induction l with
  | nil => intro _; simp
  | cons a t ih =>
    intro h
    have ha : (f a).length = c := h a (List.mem_cons_self a t)
    have ht := ih fun x hx => h x (List.mem_cons_of_mem a hx)
    simp only [List.map_cons, List.flatten_cons, List.length_append,
      List.length_cons, ha, ht]
    ring

lemma quantizeRow_getD (row : List ℚ) (i : ℕ) (hi : i < row.length) :
    (quantizeRow row).getD i 0
      = quantizeElem (scaleOf row) (row.getD i 0) := by
  unfold quantizeRow
  rw [List.getD_eq_getElem?_getD, List.getElem?_map,
    List.getElem?_eq_getElem hi]
  simp [List.getD_eq_getElem?_getD, List.getElem?_eq_getElem hi]

lemma getD_mem {row : List ℚ} {i : ℕ} (hi : i < row.length) :
    row.getD i 0 ∈ row := by
  rw [List.getD_eq_getElem?_getD, List.getElem?_eq_getElem hi]
  exact List.getElem_mem hi

/-! ### Claim theorems -/

/-- Claim C2: for every row of the reduced matrix, the emitted scale
equals `abs_max / 127.0` when `abs_max` (the maximum absolute value
over the elements of the row) is strictly positive, and equals exactly 1.0
when the row is all-zero. -/
theorem scale_formula (row : List ℚ) :
    (0 < absMax row → scaleOf row = absMax row / 127)
    ∧ ((∀ x ∈ row, x = 0) → scaleOf row = 1) :=
  ⟨fun h => scaleOf_of_pos h, fun h => scaleOf_of_all_zero h⟩

/-- Witness for C2: on the row `[3, -4]` the abs-max is positive and
the scale is `4 / 127`; on the all-zero row `[0, 0]` the scale is 1. -/
theorem scale_formula_witness :
    (0 < absMax [(3 : ℚ), -4] ∧ scaleOf [(3 : ℚ), -4] = absMax [(3 : ℚ), -4] / 127)
    ∧ ((∀ x ∈ [(0 : ℚ), 0], x = 0) ∧ scaleOf [(0 : ℚ), 0] = 1) :=
  ⟨⟨by simp [absMax], (scale_formula [(3 : ℚ), -4]).1 (by simp [absMax])⟩,
   ⟨by simp, (scale_formula [(0 : ℚ), 0]).2 (by simp)⟩⟩

/-- Claim C3 counterexample: the claim "scale == 1.0 iff the row is
all-zero" fails on the one-element row `[127]`: its abs-max is 127, so
its scale is `127 / 127 = 1`, yet the row is not all-zero. -/
theorem scale_one_iff_counterexample :
    ¬ (0 ≤ scaleOf [(127 : ℚ)]
        ∧ (scaleOf [(127 : ℚ)] = 1 ↔ ∀ x ∈ [(127 : ℚ)], x = 0)) := by
  intro ⟨_, hiff⟩
  have hscale : scaleOf [(127 : ℚ)] = 1 := by
    simp [scaleOf, absMax]
  have hall := hiff.mp hscale
  have h127 := hall 127 (List.mem_cons_self 127 [])
  norm_num at h127

/-- Claim C3 (amended): for every row the emitted scale satisfies
`scale >= 0`, and `scale == 1.0` holds whenever the row is all-zero
(the converse fails: a row whose abs-max is exactly 127 also gets
scale 1). -/
theorem scale_nonneg_and_one_of_zero (row : List ℚ) :
    0 ≤ scaleOf row ∧ ((∀ x ∈ row, x = 0) → scaleOf row = 1) :=
  ⟨le_of_lt (scaleOf_pos row), fun h => scaleOf_of_all_zero h⟩

/-- Witness for amended C3: the all-zero row `[0]` has scale 1 and the
scale is nonnegative. -/
theorem scale_nonneg_and_one_of_zero_witness :
    0 ≤ scaleOf [(0 : ℚ)] ∧ ((∀ x ∈ [(0 : ℚ)], x = 0) ∧ scaleOf [(0 : ℚ)] = 1) :=
  ⟨(scale_nonneg_and_one_of_zero [(0 : ℚ)]).1,
   by simp, (scale_nonneg_and_one_of_zero [(0 : ℚ)]).2 (by simp)⟩

/-- Claim C4: every value produced by the quantizer
(`np.clip(np.round(row / scale), -127, 127)`) lies in
`[-127, 127]`; in particular `-128` is never emitted. -/
theorem quantized_range (row : List ℚ) (v : ℤ) (hv : v ∈ quantizeRow row) :
    (-127 ≤ v ∧ v ≤ 127) ∧ v ≠ -128 := by
  unfold quantizeRow at hv
  rcases List.mem_map.mp hv with ⟨x, _, hx⟩
  subst hx
  have hb := clip_bounds (roundHalfToEven (x / scaleOf row))
  unfold quantizeElem
  exact ⟨hb, by omega⟩

/-- Witness for C4: the single-element row `[1]` quantizes to `[127]`,
and 127 lies within the claimed range. -/
theorem quantized_range_witness :
    ((127 : ℤ) ∈ quantizeRow [(1 : ℚ)])
    ∧ (((-127 : ℤ) ≤ 127 ∧ (127 : ℤ) ≤ 127) ∧ (127 : ℤ) ≠ -128) :=
  have hmem : (127 : ℤ) ∈ quantizeRow [(1 : ℚ)] := by
    have : quantizeRow [(1 : ℚ)] = [127] := by
      simp [quantizeRow, scaleOf, absMax, quantizeElem, clip, roundHalfToEven]
    rw [this]
    exact List.mem_cons_self 127 []
  ⟨hmem, quantized_range [(1 : ℚ)] 127 hmem⟩

/-- Claim C10: the computed scale is strictly positive for every row
(`abs_max / 127.0 > 0` when `abs_max > 0`, and `1.0` otherwise), so
the division `element / scale` in the quantization step is always
well-defined: the divide-by-zero branch is unreachable. -/
theorem scale_never_zero (row : List ℚ) :
    0 < scaleOf row ∧ scaleOf row ≠ 0 :=
  ⟨scaleOf_pos row, ne_of_gt (scaleOf_pos row)⟩

/-- Claim C1: for a reduced matrix whose N rows all have length K, the
output file is the 12-byte header (three unsigned 32-bit little-endian
integers: vocab_size = N, target_dim = K, format_version = 1),
followed by the N float32 scales in row order, followed by the N·K
quantized bytes row-major; its total length is exactly
`12 + 4*N + N*K` bytes. -/
theorem output_layout_and_size (m : List (List ℚ)) (k : ℕ)
    (h : ∀ r ∈ m, r.length = k) :
    outputFile m k
      = headerBytes m.length k
        ++ ((scalesOf m).map f32le).flatten
        ++ ((quantized m).map (fun r => r.map int8ToByte)).flatten
    ∧ headerBytes m.length k = u32le m.length ++ u32le k ++ u32le 1
    ∧ (outputFile m k).length = 12 + 4 * m.length + m.length * k := by
  refine ⟨rfl, rfl, ?_⟩
  have hscales : (((scalesOf m).map f32le).flatten).length
      = m.length * 4 := by
    rw [flatten_map_length_const f32le 4 (scalesOf m)
      (fun q _ => f32le_length q)]
    rw [scalesOf, List.length_map]
  have hquant : (((quantized m).map (fun r => r.map int8ToByte)).flatten).length
      = m.length * k := by
    rw [flatten_map_length_const (fun r => r.map int8ToByte) k (quantized m) ?_]
    · rw [quantized, List.length_map]
    · intro q hq
      rcases List.mem_map.mp hq with ⟨r, hr, hqr⟩
      subst hqr
      rw [List.length_map, quantizeRow, List.length_map]
      exact h r hr
  have hheader : (headerBytes m.length k).length = 12 := rfl
  unfold outputFile
  rw [List.length_append, List.length_append, hheader, hscales, hquant]
  ring

/-- Witness for C1: the one-row, one-column matrix `[[0]]` gives a
file of exactly `12 + 4*1 + 1*1 = 17` bytes with the stated layout. -/
theorem output_layout_and_size_witness :
    (∀ r ∈ [[(0 : ℚ)]], r.length = 1)
    ∧ (outputFile [[(0 : ℚ)]] 1
        = headerBytes (1 : ℕ) 1
          ++ ((scalesOf [[(0 : ℚ)]]).map f32le).flatten
          ++ ((quantized [[(0 : ℚ)]]).map (fun r => r.map int8ToByte)).flatten
      ∧ headerBytes (1 : ℕ) 1 = u32le 1 ++ u32le 1 ++ u32le 1
      ∧ (outputFile [[(0 : ℚ)]] 1).length = 12 + 4 * 1 + 1 * 1) :=
  ⟨by simp, output_layout_and_size [[(0 : ℚ)]] 1 (by simp)⟩

/-- Claim C5: for every row and every element index, the dequantized
value (quantized value times the scale of the row) differs from the
corresponding element of the reduced row by at most `scale / 2`. -/
theorem roundtrip_bound (row : List ℚ) (i : ℕ) (hi : i < row.length) :
    |((quantizeRow row).getD i 0 : ℚ) * scaleOf row - row.getD i 0|
      ≤ scaleOf row / 2 := by
  rw [quantizeRow_getD row i hi]
  exact quantizeElem_roundtrip row (row.getD i 0) (getD_mem hi)

/-- Witness for C5: on the row `[1]` at index 0 the dequantized value
is within half a scale of the original element. -/
theorem roundtrip_bound_witness :
    0 < [(1 : ℚ)].length
    ∧ |((quantizeRow [(1 : ℚ)]).getD 0 0 : ℚ) * scaleOf [(1 : ℚ)]
        - [(1 : ℚ)].getD 0 0| ≤ scaleOf [(1 : ℚ)] / 2 :=
  ⟨by norm_num, roundtrip_bound [(1 : ℚ)] 0 (by norm_num)⟩

/-- Claim C6 (spec-modelled dimension validation): if the requested
target dimension K satisfies K > D or K < 1, or the input matrix is
empty, the pipeline fails with `DimensionError` — whatever projection
the PCA fit would have produced — and no output is produced. -/
theorem dimension_error (emb : List (List ℚ)) (d k : ℕ)
    (reduce : List (List ℚ) → List (List ℚ))
    (h : d < k ∨ k < 1 ∨ emb.length = 0) :
    runPipeline emb d k reduce = .error .dimensionError
    ∧ ∀ out, runPipeline emb d k reduce ≠ .ok out := by
  have hcond : ¬ (1 ≤ k ∧ k ≤ d ∧ 1 ≤ emb.length) := by omega
  unfold runPipeline
  rw [if_neg hcond]
  exact ⟨rfl, fun out hout => Except.noConfusion hout⟩

/-- Witness for C6: with a 1×2 input matrix (D = 2) and K = 3 > D, the
pipeline fails with `DimensionError` for the identity projection. -/
theorem dimension_error_witness :
    ((2 : ℕ) < 3 ∨ (3 : ℕ) < 1 ∨ [[(1 : ℚ), 2]].length = 0)
    ∧ (runPipeline [[(1 : ℚ), 2]] 2 3 id
        = .error PipelineError.dimensionError
      ∧ ∀ out, runPipeline [[(1 : ℚ), 2]] 2 3 id ≠ .ok out) :=
  ⟨Or.inl (by norm_num),
   dimension_error [[(1 : ℚ), 2]] 2 3 id (Or.inl (by norm_num))⟩

/-- Claim C7: for the 64-element row whose single maximal element is
2.54 and whose other 63 elements are 0, the scale is `2.54 / 127`,
which is exactly `1/50 = 0.02`; the maximal element quantizes to 127
and every other element quantizes to 0. -/
theorem single_max_row_scenario :
    rowC7.length = 64
    ∧ scaleOf rowC7 = (254/100 : ℚ) / 127
    ∧ scaleOf rowC7 = 1/50
    ∧ quantizeRow rowC7 = 127 :: List.replicate 63 (0 : ℤ) := by
  have hzero : ∀ x ∈ List.replicate 63 (0 : ℚ), x = 0 := by
    intro x hx
    exact List.eq_of_mem_replicate hx
  have habs : absMax rowC7 = 254/100 := by
    unfold rowC7
    rw [absMax_cons, absMax_eq_zero hzero]
    norm_num
  have hscale : scaleOf rowC7 = 1/50 := by
    rw [scaleOf_of_pos (by rw [habs]; norm_num), habs]
    norm_num
  have hq127 : quantizeElem (scaleOf rowC7) (254/100) = 127 := by
    unfold quantizeElem
    rw [hscale]
    have hdiv : (254/100 : ℚ) / (1/50) = 127 := by norm_num
    rw [hdiv]
    have hr : roundHalfToEven (127 : ℚ) = 127 := by
      unfold roundHalfToEven
      norm_num
    rw [hr]
    exact clip_eq_self (by norm_num) (by norm_num)
  refine ⟨by simp [rowC7], by rw [hscale]; norm_num, hscale, ?_⟩
  show rowC7.map (quantizeElem (scaleOf rowC7)) = _
  nth_rewrite 2 [rowC7]
  rw [List.map_cons, List.map_replicate, hq127,
    quantizeElem_zero (scaleOf rowC7)]

/-- Claim C8: the quantize-and-encode stage is a pure function of the
reduced matrix and the target dimension, so two runs on an identical
reduced matrix (identical input and identical PCA fit) produce
byte-identical output files. -/
theorem deterministic_output (m1 m2 : List (List ℚ)) (k1 k2 : ℕ)
    (h1 : m1 = m2) (h2 : k1 = k2) :
    outputFile m1 k1 = outputFile m2 k2 := by
  rw [h1, h2]

/-- Witness for C8: two runs on the matrix `[[1]]` with K = 1 agree. -/
theorem deterministic_output_witness :
    [[(1 : ℚ)]] = [[(1 : ℚ)]] ∧ (1 : ℕ) = 1
    ∧ outputFile [[(1 : ℚ)]] 1 = outputFile [[(1 : ℚ)]] 1 :=
  ⟨rfl, rfl, deterministic_output [[(1 : ℚ)]] [[(1 : ℚ)]] 1 1 rfl rfl⟩

/-- Claim C9: the quantizer rounds with the round-half-to-even policy
of `np.round`: the quantized value before clamping is
`x / scale` rounded to the nearest integer with ties to the nearest
even integer; the rounded value is always within 1/2 of the argument,
a half-integer `f + 1/2` rounds to `f` when `f` is even and to `f + 1`
otherwise, and in particular 0.5 rounds to 0 while 1.5 rounds to 2. -/
theorem rounding_policy :
    (∀ s x : ℚ, quantizeElem s x = clip (-127) 127 (roundHalfToEven (x / s)))
    ∧ (∀ q : ℚ, |(roundHalfToEven q : ℚ) - q| ≤ 1/2)
    ∧ (∀ f : ℤ, roundHalfToEven ((f : ℚ) + 1/2) = if Even f then f else f + 1)
    ∧ roundHalfToEven (1/2) = 0
    ∧ roundHalfToEven (3/2) = 2 := by
  refine ⟨fun s x => rfl, roundHalfToEven_sub_abs_le, roundHalfToEven_tie,
    ?_, ?_⟩
  · unfold roundHalfToEven
    norm_num
  · unfold roundHalfToEven
    norm_num

end PcaQuantize
